import Mathlib

/-!
Verification of the media-assembly pipeline and caption segmenter of the
mixed-content-generator server.

The Python sources are shallowly embedded:
* `app/utils/srt_utils.py` — timestamp parsing/formatting, text re-chunking and
  the timed SRT reformatter, embedded over `List Char` (Python `str` values),
  with Python float arithmetic modelled by exact rationals and Python's
  `round` (half-to-even) modelled by `pyRound`.
* `app/services/video_service.py` — the duration split, the slideshow file
  list, and the orchestrator's failure policy, with external process calls
  (ffmpeg/ffprobe/storage) abstracted into an environment record.

Only the ASCII fragment of Python's `str.isdigit`/`int` is modelled; every
concrete input used below is ASCII.
-/

set_option maxHeartbeats 1000000

open List

/-- Python strings are modelled as lists of characters. -/
abbrev Str := List Char

/-- The whitespace characters recognised by Python's `str.strip`/`str.split`. -/
def pyIsSpace (c : Char) : Bool :=
  c = ' ' || c = '\t' || c = '\n' || c = '\r' || c = '\x0b' || c = '\x0c'

/-- Python `s.strip()`: drop leading and trailing whitespace. -/
def pyStrip (s : Str) : Str :=
  ((s.dropWhile pyIsSpace).reverse.dropWhile pyIsSpace).reverse

/-- `prefixMatch p s` is true when `p` is a prefix of `s`. -/
def prefixMatch : Str → Str → Bool
  | [], _ => true
  | _ :: _, [] => false
  | a :: as, b :: bs => a = b && prefixMatch as bs

/-- Worker for `splitOnSep`; the fuel always exceeds the remaining length at
every call site, so the fuel-0 clause is never reached with a nonempty
separator. -/
def splitOnSepGo (sep : Str) : Nat → Str → Str → List Str
  | 0, acc, rest => [acc.reverse ++ rest]
  | _ + 1, acc, [] => [acc.reverse]
  | fuel + 1, acc, c :: cs =>
    if prefixMatch sep (c :: cs) then
      acc.reverse :: splitOnSepGo sep fuel [] (List.drop sep.length (c :: cs))
    else
      splitOnSepGo sep fuel (c :: acc) cs

/-- Python `s.split(sep)` for a nonempty separator: leftmost non-overlapping
occurrences, keeping empty fields. -/
def splitOnSep (sep s : Str) : List Str := splitOnSepGo sep (s.length + 1) [] s

/-- Python `needle in hay` for strings (substring containment). -/
def containsSeq (needle : Str) : Str → Bool
  | [] => prefixMatch needle []
  | c :: cs => prefixMatch needle (c :: cs) || containsSeq needle cs

/-- Worker for `pySplitWs`: whitespace-run splitting with an accumulator. -/
def pySplitWsGo : Str → Str → List Str
  | acc, [] => if acc.isEmpty then [] else [acc.reverse]
  | acc, c :: cs =>
    if pyIsSpace c then
      if acc.isEmpty then pySplitWsGo [] cs else acc.reverse :: pySplitWsGo [] cs
    else
      pySplitWsGo (c :: acc) cs

/-- Python `s.split()` with no argument: split on whitespace runs, no empty
fields. -/
def pySplitWs (s : Str) : List Str := pySplitWsGo [] s

/-- Python `sep.join(parts)`. -/
def joinSep (sep : Str) : List Str → Str
  | [] => []
  | [x] => x
  | x :: xs => x ++ sep ++ joinSep sep xs

/-- ASCII decimal digit test (the fragment of Python `str.isdigit` exercised
here). -/
def pyIsDigit (c : Char) : Bool := '0' ≤ c && c ≤ '9'

/-- Python `s.isdigit()` on ASCII: nonempty and all digits. -/
def isDigitStr (s : Str) : Bool := !s.isEmpty && s.all pyIsDigit

/-- Value of an ASCII digit string (most significant first). -/
def parseNatDigits (s : Str) : Nat :=
  s.foldl (fun a c => a * 10 + (c.toNat - '0'.toNat)) 0

/-- Python `int(s)` on ASCII decimal literals: optional surrounding
whitespace, optional sign, at least one digit; `none` models `ValueError`. -/
def pyIntOfStr (s : Str) : Option Int :=
  let t := pyStrip s
  if t.isEmpty then none
  else if t.headD ' ' = '-' then
    if !t.tail.isEmpty && t.tail.all pyIsDigit then some (-(parseNatDigits t.tail : Int))
    else none
  else if t.headD ' ' = '+' then
    if !t.tail.isEmpty && t.tail.all pyIsDigit then some (parseNatDigits t.tail : Int)
    else none
  else if t.all pyIsDigit then some (parseNatDigits t : Int)
  else none

/-- The `h, m, s = map(int, time_part.split(':'))` step combined with the
final sum (srt_utils.py lines 10-11): a colon split into anything but exactly
three integer fields is a `ValueError` and yields 0. -/
def parseColonParts (msPart : Str) : List Str → Int
  | [hs, ms, ss] =>
    match pyIntOfStr hs, pyIntOfStr ms, pyIntOfStr ss, pyIntOfStr msPart with
    | some h, some m, some s, some msp =>
      (h * 3600 * 1000) + (m * 60 * 1000) + (s * 1000) + msp
    | _, _, _, _ => 0
  | _ => 0

/-- The `time_part, ms_part = ts_str.split(',')` step (srt_utils.py line 9):
a comma split into anything but exactly two fields is a `ValueError` and
yields 0. -/
def parseCommaParts : List Str → Int
  | [timePart, msPart] => parseColonParts msPart (splitOnSep [':'] timePart)
  | _ => 0

/-- `parse_timestamp_to_ms` (srt_utils.py lines 6-15). -/
def parse_timestamp_to_ms (ts : Str) : Int :=
  parseCommaParts (splitOnSep [','] ts)

/-- Decimal digits of `n`, most significant first; fuel-driven structural
recursion, `natToDigits` always supplies enough fuel. -/
def natToDigitsGo : Nat → Nat → Str
  | 0, _ => []
  | fuel + 1, n =>
    if n < 10 then [Nat.digitChar n]
    else natToDigitsGo fuel (n / 10) ++ [Nat.digitChar (n % 10)]

/-- Decimal representation of a natural number. -/
def natToDigits (n : Nat) : Str := natToDigitsGo (n + 1) n

/-- Python `f"{n:0wd}"`: decimal digits left-padded with zeros to width `w`. -/
def padZeros (w : Nat) (n : Nat) : Str :=
  List.replicate (w - (natToDigits n).length) '0' ++ natToDigits n

/-- `format_ms_to_timestamp` (srt_utils.py lines 17-29): clamp negatives to 0,
then render `HH:MM:SS,mmm` with zero-padded fields. -/
def format_ms_to_timestamp (totalMs : Int) : Str :=
  let tm := totalMs.toNat
  let ms := tm % 1000
  let totalSeconds := tm / 1000
  let s := totalSeconds % 60
  let totalMinutes := totalSeconds / 60
  let m := totalMinutes % 60
  let h := totalMinutes / 60
  padZeros 2 h ++ ':' :: padZeros 2 m ++ ':' :: padZeros 2 s ++ ',' :: padZeros 3 ms

/-- Python `round` on a rational value: round half to even, as applied by
`int(round(x))` to the float segment boundaries. -/
def pyRound (q : ℚ) : Int :=
  let f := ⌊q⌋
  let r := q - f
  if r < 1/2 then f
  else if 1/2 < r then f + 1
  else if Even f then f else f + 1

/-- `_split_text_into_segments` inner loop (srt_utils.py lines 43-51): greedy
groups of exactly `maxWords` words, remainder in a final shorter group. -/
def chunkWordsGo (maxWords : Nat) : List Str → List Str → List Str
  | cur, [] => if cur.isEmpty then [] else [joinSep [' '] cur]
  | cur, w :: ws =>
    let cur' := cur ++ [w]
    if cur'.length = maxWords then joinSep [' '] cur' :: chunkWordsGo maxWords [] ws
    else chunkWordsGo maxWords cur' ws

/-- The words of a cue's text lines, exactly as `_split_text_into_segments`
computes them (srt_utils.py lines 38-39): strip each line, drop the empty
ones, join with single spaces, split on whitespace. -/
def wordsOf (textLines : List Str) : List Str :=
  pySplitWs (joinSep [' '] ((textLines.map pyStrip).filter (fun l => !l.isEmpty)))

/-- `_split_text_into_segments` (srt_utils.py lines 31-53). -/
def splitTextIntoSegments (textLines : List Str) (maxWords : Nat) : List Str :=
  if textLines.isEmpty then []
  else
    let words := wordsOf textLines
    if words.isEmpty then [[]]
    else
      let segs := chunkWordsGo maxWords [] words
      if segs.isEmpty then [[]] else segs

/-- One retimed caption chunk: its text and its (exact rational) start and end
in milliseconds, before the final rounding to integer milliseconds. -/
structure Chunk where
  text : Str
  start : ℚ
  stop : ℚ
  deriving DecidableEq, Repr

/-- The per-cue retiming loop (srt_utils.py lines 130-163). `origEnd` is the
cue's end, `minDur` the 200ms floor, `per` the equal share per chunk, the last
argument the running cursor `current_segment_start_ms`. -/
def segLoop (origEnd minDur per : ℚ) : List Str → ℚ → List Chunk
  | [], _ => []
  | [t], cur =>
    -- last segment: end forced to the original end, then floor, then cap
    let e0 := origEnd
    let e1 := if e0 < cur + minDur then cur + minDur else e0
    let e2 := if e1 > origEnd then origEnd else e1
    if cur ≥ e2 then [] else [⟨t, cur, e2⟩]
  | t :: rest, cur =>
    -- intermediate segment: equal share, then floor, then cap
    let e0 := cur + per
    let e1 := if e0 < cur + minDur then cur + minDur else e0
    let e2 := if e1 > origEnd then origEnd else e1
    if cur ≥ e2 then segLoop origEnd minDur per rest e2
    else
      ⟨t, cur, e2⟩ ::
        (if e2 ≥ origEnd then [] else segLoop origEnd minDur per rest e2)

/-- The chunks the segmenter emits for a positive-duration cue
(srt_utils.py lines 111-163): text re-chunking, then either a single chunk
with the original timing or the timed redistribution loop. -/
def cueChunks (startMs endMs : Int) (textLines : List Str) (maxWords : Nat) : List Chunk :=
  let segs := splitTextIntoSegments textLines maxWords
  if segs.length = 0 ∨ (segs.length = 1 ∧ (pyStrip (segs.headD [])).isEmpty) then []
  else if segs.length = 1 then [⟨segs.headD [], (startMs : ℚ), (endMs : ℚ)⟩]
  else
    segLoop (endMs : ℚ) 200 (((endMs - startMs : Int) : ℚ) / (segs.length : ℚ)) segs
      (startMs : ℚ)

/-- An output block of the reformatter: either an original block passed
through unmodified, or a renumbered cue with its timestamp line and text. -/
inductive OutBlock where
  | pass (s : Str)
  | cue (idx : Nat) (tsLine : Str) (text : Str)
  deriving DecidableEq, Repr

/-- The substring `-->` checked on timestamp lines (srt_utils.py line 89). -/
def arrowSeq : Str := "-->".data

/-- The separator ` --> ` of timestamp lines (srt_utils.py line 94). -/
def arrowSepSeq : Str := " --> ".data

/-- The blank-line block separator (srt_utils.py lines 72 and 165). -/
def blankSepSeq : Str := "\n\n".data

/-- Timestamp line of a retimed chunk (srt_utils.py line 155). -/
def chunkTsLine (c : Chunk) : Str :=
  format_ms_to_timestamp (pyRound c.start) ++ arrowSepSeq ++
    format_ms_to_timestamp (pyRound c.stop)

/-- Emit retimed chunks as cues numbered consecutively from `idx`. -/
def emitChunks (idx : Nat) : List Chunk → List OutBlock
  | [] => []
  | c :: cs => .cue idx (chunkTsLine c) c.text :: emitChunks (idx + 1) cs

/-- Processing of one successfully parsed cue (srt_utils.py lines 93-163):
degenerate durations are re-emitted renumbered with the original timestamp
line; empty text drops the cue; one chunk keeps the original timestamp line;
multiple chunks go through `segLoop`. -/
def processCue (tsLine sPart ePart : Str) (textLines : List Str) (maxWords idx : Nat) :
    List OutBlock × Nat :=
  let startMs := parse_timestamp_to_ms (pyStrip sPart)
  let endMs := parse_timestamp_to_ms (pyStrip ePart)
  if endMs - startMs ≤ 0 then
    ([.cue idx tsLine (joinSep ['\n'] textLines)], idx + 1)
  else
    let segs := splitTextIntoSegments textLines maxWords
    if segs.length = 0 ∨ (segs.length = 1 ∧ (pyStrip (segs.headD [])).isEmpty) then ([], idx)
    else if segs.length = 1 then ([.cue idx tsLine (segs.headD [])], idx + 1)
    else
      let chunks := cueChunks startMs endMs textLines maxWords
      (emitChunks idx chunks, idx + chunks.length)

/-- Handling of the timestamp-line split (srt_utils.py lines 93-102): unless
` --> ` splits the line into exactly two parts, the `ValueError` branch passes
the original block through. -/
def processTsParts (blockStr l1 : Str) (textLines : List Str) (maxWords idx : Nat) :
    List Str → List OutBlock × Nat
  | [sPart, ePart] => processCue l1 sPart ePart textLines maxWords idx
  | _ => ([.pass blockStr], idx)

/-- Processing of the line list of one block (srt_utils.py lines 80-102):
blocks with fewer than two lines, a non-digit index line, or a timestamp line
without `-->` are passed through unmodified. -/
def processLines (blockStr : Str) (maxWords idx : Nat) : List Str → List OutBlock × Nat
  | l0 :: l1 :: textLines =>
    if !isDigitStr (pyStrip l0) || !containsSeq arrowSeq l1 then
      ([.pass blockStr], idx)
    else
      processTsParts blockStr l1 textLines maxWords idx (splitOnSep arrowSepSeq l1)
  | _ => ([.pass blockStr], idx)

/-- Processing of one raw block string (srt_utils.py lines 77-163): blank
blocks are skipped, the rest is dispatched on the block's lines. -/
def processBlock (blockStr : Str) (maxWords idx : Nat) : List OutBlock × Nat :=
  if (pyStrip blockStr).isEmpty then ([], idx)
  else processLines blockStr maxWords idx (splitOnSep ['\n'] blockStr)

/-- Process all blocks in order, threading the running subtitle index
(srt_utils.py lines 72-163). -/
def processAll (maxWords : Nat) : List Str → Nat → List OutBlock
  | [], _ => []
  | b :: bs, idx =>
    let r := processBlock b maxWords idx
    r.1 ++ processAll maxWords bs r.2

/-- All output blocks of the reformatter for a given file content. -/
def reformatBlocks (content : Str) (maxWords : Nat) : List OutBlock :=
  processAll maxWords (splitOnSep blankSepSeq (pyStrip content)) 1

/-- Rendering of one output block (srt_utils.py lines 107, 119, 156): emitted
cues carry a trailing newline, pass-through blocks are kept verbatim. -/
def renderOutBlock : OutBlock → Str
  | .pass s => s
  | .cue i ts t => natToDigits i ++ '\n' :: (ts ++ '\n' :: (t ++ ['\n']))

/-- `_blocking_reformat_srt_file_timed` on file content (srt_utils.py lines
72-167): blocks joined with a blank line, stripped, plus a final newline when
nonempty. -/
def reformatContent (content : Str) (maxWords : Nat) : Str :=
  let rendered := (reformatBlocks content maxWords).map renderOutBlock
  let joined := joinSep blankSepSeq rendered
  let stripped := pyStrip joined
  if stripped.isEmpty then [] else stripped ++ ['\n']

/-! ## Pipeline embedding (`app/services/video_service.py`) -/

/-- The duration split (video_service.py lines 100-111): known positive audio
duration gives `min(d, 60)` to the slideshow and the nonnegative remainder to
the zoom part; unknown or nonpositive durations give the 60/60 defaults. -/
def computeDurations : Option ℚ → ℚ × ℚ
  | some d =>
    if 0 < d then (min d 60, max 0 (d - min d 60)) else (60, 60)
  | none => (60, 60)

/-- The slideshow concat-demuxer file list (video_service.py lines 119-124):
one entry per downloaded image, in order, all carrying the same per-image
duration `max(0.01, slideshow_duration / image_count)`. -/
def slideshowFilelist (imagePaths : List Str) (slideshowDur : ℚ) : List (Str × ℚ) :=
  let d := max (1/100 : ℚ) (slideshowDur / (imagePaths.length : ℚ))
  imagePaths.map (fun p => (p, d))

/-- Terminal and intermediate job states (`app/models/video.py`). -/
inductive JobStatus where
  | processing | completed | failed
  deriving DecidableEq, Repr

/-- Results of the external collaborators of one job: how many images
downloaded, whether audio downloaded, the probed duration, and the outcome of
each engine invocation and of the upload. -/
structure PipelineEnv where
  imagesOk : Nat
  audioOk : Bool
  probedDuration : Option ℚ
  slideshowOk : Bool
  slideshowErr : Str
  zoomOk : Bool
  concatOk : Bool
  concatErr : Str
  muxOk : Bool
  muxErr : Str
  uploadOk : Bool
  deriving DecidableEq, Repr

/-- Observable outcome of one job: final status, recorded error message,
whether the concatenation step was reached, and how many rendered parts it
received. -/
structure JobOutcome where
  status : JobStatus
  errorMessage : Option Str
  reachedConcat : Bool
  partsAtConcat : Nat
  deriving DecidableEq, Repr

/-- The mux / upload tail of the job (video_service.py lines 354-473): a mux
failure or an upload failure aborts with the captured message. -/
def muxAndUpload (env : PipelineEnv) (parts : Nat) : JobOutcome :=
  if !env.muxOk then
    ⟨.failed, some ("Failed final video processing: ".data ++ env.muxErr), true, parts⟩
  else if !env.uploadOk then
    ⟨.failed, some "Failed to upload final video to Supabase Storage.".data, true, parts⟩
  else
    ⟨.completed, none, true, parts⟩

/-- `create_video_task` control flow (video_service.py lines 38-479) over an
abstract environment: no images aborts; a slideshow failure aborts; a zoom
failure only omits the zoom part; a single part is copied while two parts go
through engine concatenation whose failure aborts; then mux and upload.
Raised errors are recorded via the except-branch status update
(lines 476-479). -/
def runJob (env : PipelineEnv) : JobOutcome :=
  if env.imagesOk = 0 then
    ⟨.failed, some "Failed to download any images.".data, false, 0⟩
  else
    let durs := computeDurations (if env.audioOk then env.probedDuration else none)
    if !env.slideshowOk then
      ⟨.failed, some ("Failed to generate Part 1 (Slideshow): ".data ++ env.slideshowErr),
        false, 0⟩
    else
      let parts := 1 + (if 0 < durs.2 ∧ env.zoomOk then 1 else 0)
      if parts = 1 then
        -- one part: plain file copy, the engine concatenation is not invoked
        muxAndUpload env parts
      else if !env.concatOk then
        ⟨.failed, some ("Failed intermediate concatenation: ".data ++ env.concatErr),
          true, parts⟩
      else
        muxAndUpload env parts

/-! ## Observation helpers for the reformatter output -/

/-- Indices of the processed (renumbered) cues among the output blocks. -/
def cueIndices (bs : List OutBlock) : List Nat :=
  bs.filterMap (fun b => match b with | .cue i _ _ => some i | .pass _ => none)

/-- First line of each rendered output block (the index line of the block as
it appears in the output file). -/
def outFirstLines (bs : List OutBlock) : List Str :=
  bs.map (fun b => (splitOnSep ['\n'] (renderOutBlock b)).headD [])

/-- Word count of a chunk text, as Python `len(s.split())`. -/
def wordCount (s : Str) : Nat := (pySplitWs s).length

/-- A word as produced by whitespace splitting: nonempty and free of
whitespace characters. -/
def CleanWord (w : Str) : Prop := w ≠ [] ∧ ∀ c ∈ w, pyIsSpace c = false

/-- Chunk intervals chained consecutively starting at `cur`. -/
def Chained (cur : ℚ) : List Chunk → Prop
  | [] => True
  | c :: cs => c.start = cur ∧ Chained c.stop cs

/-- End of the last chunk, when any. -/
def lastStop (cs : List Chunk) : Option ℚ := cs.getLast?.map Chunk.stop

/-! ## Claim C1 — the timing plan -/

/-- Claim C1: if the probed audio duration is known and strictly positive, the
timing plan assigns `slideshow = min(duration, 60)` and
`zoom = max(0, duration - slideshow)`; if the duration is unknown or
nonpositive, both durations are 60. -/
theorem computeDurations_spec (d : Option ℚ) :
    (∀ x, d = some x → 0 < x →
        computeDurations d = (min x 60, max 0 (x - min x 60))) ∧
    ((d = none ∨ ∃ x, d = some x ∧ x ≤ 0) → computeDurations d = (60, 60)) := by
  constructor
  · rintro x rfl hx
    simp [computeDurations, hx]
  · rintro (rfl | ⟨x, rfl, hx⟩)
    · rfl
    · simp [computeDurations, not_lt.mpr hx]

/-- Witness for C1 at durations 100 and none. -/
theorem computeDurations_spec_witness :
    computeDurations (some 100) = (60, 40) ∧ computeDurations none = (60, 60) := by
  constructor
  · have h := (computeDurations_spec (some 100)).1 100 rfl (by norm_num)
    rw [h]
    norm_num
  · exact (computeDurations_spec none).2 (Or.inl rfl)

/-! ## Claim C9 — the slideshow file list -/

/-- Claim C9: for a nonempty list of `N` downloaded images and slideshow
duration `S`, the concat-demuxer file list has exactly one entry per image, in
order, each annotated with the same duration `max(0.01, S/N)`. -/
theorem slideshowFilelist_spec (paths : List Str) (S : ℚ) (hne : paths ≠ []) :
    (slideshowFilelist paths S).map Prod.fst = paths ∧
    (slideshowFilelist paths S).length = paths.length ∧
    ∀ e ∈ slideshowFilelist paths S,
      e.2 = max (1/100 : ℚ) (S / (paths.length : ℚ)) := by
  refine ⟨?_, ?_, ?_⟩
  · simp [slideshowFilelist, List.map_map, Function.comp_def]
  · simp [slideshowFilelist]
  · intro e he
    simp only [slideshowFilelist, List.mem_map] at he
    obtain ⟨p, _, rfl⟩ := he
    rfl

/-- Witness for C9: two images, slideshow duration 45. -/
theorem slideshowFilelist_spec_witness :
    (slideshowFilelist ["a".data, "b".data] 45).map Prod.fst = ["a".data, "b".data] ∧
    (slideshowFilelist ["a".data, "b".data] 45).length = 2 ∧
    ∀ e ∈ slideshowFilelist ["a".data, "b".data] 45,
      e.2 = max (1/100 : ℚ) (45 / ((["a".data, "b".data] : List Str).length : ℚ)) :=
  slideshowFilelist_spec ["a".data, "b".data] 45 (by simp)

/-! ## Claim C8 — fatal and non-fatal render stages -/

/-- Claim C8: a failed zoom render is non-fatal (the part is omitted and the
job reaches concatenation with a single part, completing when the later stages
succeed), while a failed slideshow render, a failed concatenation, or a failed
final mux each aborts the job with status `failed` and the captured error
message recorded. -/
theorem runJob_failure_policy (env : PipelineEnv) :
    (env.imagesOk ≠ 0 → env.slideshowOk = true →
      0 < (computeDurations (if env.audioOk then env.probedDuration else none)).2 →
      env.zoomOk = false → env.muxOk = true → env.uploadOk = true →
      runJob env = ⟨.completed, none, true, 1⟩) ∧
    (env.imagesOk ≠ 0 → env.slideshowOk = false →
      runJob env =
        ⟨.failed, some ("Failed to generate Part 1 (Slideshow): ".data ++ env.slideshowErr),
          false, 0⟩) ∧
    (env.imagesOk ≠ 0 → env.slideshowOk = true →
      0 < (computeDurations (if env.audioOk then env.probedDuration else none)).2 →
      env.zoomOk = true → env.concatOk = false →
      runJob env =
        ⟨.failed, some ("Failed intermediate concatenation: ".data ++ env.concatErr),
          true, 2⟩) ∧
    (env.imagesOk ≠ 0 → env.slideshowOk = true → env.concatOk = true → env.muxOk = false →
      (runJob env).status = .failed ∧
      (runJob env).errorMessage =
        some ("Failed final video processing: ".data ++ env.muxErr) ∧
      (runJob env).reachedConcat = true) := by
  refine ⟨?_, ?_, ?_, ?_⟩
  · intro h1 h2 h3 h4 h5 h6
    simp [runJob, muxAndUpload, h1, h2, h3, h4, h5, h6]
  · intro h1 h2
    simp [runJob, h1, h2]
  · intro h1 h2 h3 h4 h5
    simp [runJob, h1, h2, h3, h4, h5]
  · intro h1 h2 h3 h4
    by_cases hz : 0 < (computeDurations (if env.audioOk then env.probedDuration else none)).2
        ∧ env.zoomOk = true
    · simp [runJob, muxAndUpload, h1, h2, h3, h4, hz.1, hz.2]
    · rcases not_and_or.mp hz with hz' | hz'
      · simp [runJob, muxAndUpload, h1, h2, h4, hz']
      · simp only [Bool.not_eq_true] at hz'
        simp [runJob, muxAndUpload, h1, h2, h4, hz']

/-- Witness for C8 at four concrete environments: zoom fails; slideshow
fails; concatenation fails; mux fails. -/
theorem runJob_failure_policy_witness :
    runJob ⟨2, true, some 100, true, [], false, true, [], true, [], true⟩ =
      ⟨.completed, none, true, 1⟩ ∧
    runJob ⟨2, true, some 100, false, "boom".data, true, true, [], true, [], true⟩ =
      ⟨.failed, some ("Failed to generate Part 1 (Slideshow): ".data ++ "boom".data),
        false, 0⟩ ∧
    runJob ⟨2, true, some 100, true, [], true, false, "cat".data, true, [], true⟩ =
      ⟨.failed, some ("Failed intermediate concatenation: ".data ++ "cat".data), true, 2⟩ ∧
    (runJob ⟨2, true, some 100, true, [], true, true, [], false, "mux".data, true⟩).status =
      .failed := by
  refine ⟨?_, ?_, ?_, ?_⟩
  · exact (runJob_failure_policy _).1 (by decide) rfl (by norm_num [computeDurations]) rfl
      rfl rfl
  · exact (runJob_failure_policy _).2.1 (by decide) rfl
  · exact (runJob_failure_policy _).2.2.1 (by decide) rfl (by norm_num [computeDurations])
      rfl rfl
  · exact ((runJob_failure_policy _).2.2.2 (by decide) rfl rfl rfl).1

/-! ## Claim C4 — text re-chunking -/

/-- Counterexample to C4 as stated: a cue with no text lines at all (an empty
text) yields no chunks, not the single empty-text chunk the claim requires. -/
theorem splitText_empty_lines_counterexample :
    splitTextIntoSegments [] 4 = [] ∧ ([] : List Str) ≠ [[]] := by
  constructor
  · decide
  · decide

/-! ## Claim C5 — idempotence of the reformatter -/

/-- Counterexample to C5: on a two-cue file the reformatter's own output is
not a fixed point — the emitted blocks are separated by three newlines, so a
second run sees every block after the first with a leading newline, treats it
as malformed pass-through, and the joined output gains one extra newline per
boundary. -/
theorem reformat_not_idempotent_counterexample :
    reformatContent
        (reformatContent
          "1\n00:00:00,000 --> 00:00:02,000\nhello\n\n2\n00:00:02,000 --> 00:00:04,000\nworld".data
          4) 4 ≠
      reformatContent
        "1\n00:00:00,000 --> 00:00:02,000\nhello\n\n2\n00:00:02,000 --> 00:00:04,000\nworld".data
        4 := by
  decide

/-! ## Claim C6 — output renumbering -/

/-- Counterexample to C6 as stated: with a malformed (pass-through) block
between two processed cues, the index lines of the output file's blocks are
`1`, `x`, `2` — not the consecutive integers 1, 2, 3. -/
theorem output_indices_not_consecutive_counterexample :
    outFirstLines
        (reformatBlocks
          "1\n00:00:00,000 --> 00:00:01,000\nhello\n\nx\n00:00:01,000 --> 00:00:02,000\nmid\n\n3\n00:00:02,000 --> 00:00:03,000\nworld".data
          4) =
      ["1".data, "x".data, "2".data] ∧
    ["1".data, "x".data, "2".data] ≠
      (List.range' 1 3).map (fun n => natToDigits n) := by
  constructor
  · decide
  · decide

/-! ## Claim C7 — malformed blocks -/

/-- Counterexample to C7 as stated: a block whose timestamp fields are
malformed (`00:00:0a,000 --> 00:00:0b,000`) but whose structure is intact is
NOT passed through unmodified — both timestamps parse to 0, the duration is
degenerate, and the cue is re-emitted renumbered (index line `7` becomes
`1`). -/
theorem malformed_timestamp_renumbered_counterexample :
    processBlock "7\n00:00:0a,000 --> 00:00:0b,000\nhello".data 4 1 =
      ([.cue 1 "00:00:0a,000 --> 00:00:0b,000".data "hello".data], 2) ∧
    renderOutBlock (.cue 1 "00:00:0a,000 --> 00:00:0b,000".data "hello".data) ≠
      "7\n00:00:0a,000 --> 00:00:0b,000\nhello".data := by
  constructor
  · decide
  · decide

/-! ## Helper lemmas on whitespace splitting and joining -/

theorem pySplitWsGo_clean :
    ∀ (s acc : Str), (∀ c ∈ acc, pyIsSpace c = false) →
      ∀ w ∈ pySplitWsGo acc s, CleanWord w := by
  intro s
  induction s with
  | nil =>
    intro acc hacc w hw
    simp only [pySplitWsGo] at hw
    split at hw
    · simp at hw
    · next hne =>
      simp only [List.mem_singleton] at hw
      subst hw
      refine ⟨?_, ?_⟩
      · intro h
        rw [List.reverse_eq_nil_iff] at h
        subst h
        simp at hne
      · intro c hc
        exact hacc c (List.mem_reverse.mp hc)
  | cons a t ih =>
    intro acc hacc w hw
    cases hsp : pyIsSpace a with
    | true =>
      simp only [pySplitWsGo, hsp, if_true] at hw
      split at hw
      · exact ih [] (by simp) w hw
      · next hne =>
        rcases List.mem_cons.mp hw with rfl | hw'
        · refine ⟨?_, ?_⟩
          · intro h
            rw [List.reverse_eq_nil_iff] at h
            subst h
            simp at hne
          · intro c hc
            exact hacc c (List.mem_reverse.mp hc)
        · exact ih [] (by simp) w hw'
    | false =>
      simp only [pySplitWsGo, hsp, Bool.false_eq_true, if_false] at hw
      refine ih (a :: acc) ?_ w hw
      intro c hc
      rcases List.mem_cons.mp hc with rfl | hc'
      · exact hsp
      · exact hacc c hc'

theorem pySplitWs_clean (s : Str) : ∀ w ∈ pySplitWs s, CleanWord w :=
  pySplitWsGo_clean s [] (by simp)

theorem pySplitWsGo_append_word (w : Str) :
    ∀ (acc rest : Str), (∀ c ∈ w, pyIsSpace c = false) →
      pySplitWsGo acc (w ++ rest) = pySplitWsGo (w.reverse ++ acc) rest := by
  induction w with
  | nil => intro acc rest _; simp
  | cons a t ih =>
    intro acc rest hw
    have ha : pyIsSpace a = false := hw a (by simp)
    simp only [List.cons_append, pySplitWsGo, ha, Bool.false_eq_true, if_false]
    have hih : pySplitWsGo (a :: acc) (t ++ rest) = pySplitWsGo (t.reverse ++ (a :: acc)) rest :=
      ih (a :: acc) rest (fun c hc => hw c (by simp [hc]))
    rw [List.append_eq, hih]
    simp

theorem pySplitWs_joinSep :
    ∀ (ws : List Str), (∀ w ∈ ws, CleanWord w) → ws ≠ [] →
      pySplitWs (joinSep [' '] ws) = ws := by
  intro ws
  induction ws with
  | nil => intro _ h; exact absurd rfl h
  | cons w t ih =>
    intro hclean _
    have hw := hclean w (by simp)
    cases t with
    | nil =>
      show pySplitWsGo [] (joinSep [' '] [w]) = [w]
      have : joinSep [' '] [w] = w ++ [] := by simp [joinSep]
      rw [this, pySplitWsGo_append_word w [] [] hw.2]
      simp only [List.append_nil, pySplitWsGo]
      rw [if_neg]
      · simp
      · simp [List.isEmpty_iff, hw.1]
    | cons w' t' =>
      have hjoin : joinSep [' '] (w :: w' :: t') = w ++ ' ' :: joinSep [' '] (w' :: t') := by
        simp [joinSep]
      show pySplitWsGo [] (joinSep [' '] (w :: w' :: t')) = w :: w' :: t'
      rw [hjoin, pySplitWsGo_append_word w [] _ hw.2]
      simp only [List.append_nil, pySplitWsGo]
      have hsp : pyIsSpace ' ' = true := by decide
      rw [if_pos hsp, if_neg (by simp [List.isEmpty_iff, hw.1])]
      simp only [List.reverse_reverse]
      have hih : pySplitWsGo [] (joinSep [' '] (w' :: t')) = w' :: t' :=
        ih (fun x hx => hclean x (by simp [hx])) (by simp)
      rw [hih]

theorem chunkWordsGo_length (K : Nat) (hK : 1 ≤ K) :
    ∀ (ws cur : List Str), cur.length < K →
      (chunkWordsGo K cur ws).length = (cur.length + ws.length + (K - 1)) / K := by
  intro ws
  induction ws with
  | nil =>
    intro cur hcur
    simp only [chunkWordsGo]
    split
    · next h =>
      rw [List.isEmpty_iff] at h
      subst h
      show (0 : Nat) = (0 + 0 + (K - 1)) / K
      symm
      exact Nat.div_eq_of_lt (by omega)
    · next h =>
      rw [List.isEmpty_iff] at h
      have hlen : 1 ≤ cur.length := List.length_pos.mpr h
      show (1 : Nat) = (cur.length + 0 + (K - 1)) / K
      symm
      exact Nat.div_eq_of_lt_le (by omega) (by omega)
  | cons w ws ih =>
    intro cur hcur
    simp only [chunkWordsGo]
    split
    · next h =>
      have hK0 : 0 < K := hK
      have h' : cur.length + 1 = K := by simpa using h
      simp only [List.length_cons]
      rw [ih [] (by simp; omega)]
      have harith : cur.length + (ws.length + 1) + (K - 1) = ([] : List Str).length + ws.length + (K - 1) + K := by
        simp only [List.length_nil]
        omega
      rw [harith, Nat.add_div_right _ hK0]
    · next h =>
      have h' : cur.length + 1 ≠ K := by simpa using h
      have hlt : (cur ++ [w]).length < K := by
        simp only [List.length_append, List.length_cons, List.length_nil]
        omega
      rw [ih (cur ++ [w]) hlt]
      congr 1
      simp only [List.length_append, List.length_cons, List.length_nil]
      omega

theorem chunkWordsGo_mem (K : Nat) :
    ∀ (ws cur : List Str), cur.length < K →
      ∀ c ∈ chunkWordsGo K cur ws,
        ∃ g, c = joinSep [' '] g ∧ 1 ≤ g.length ∧ g.length ≤ K ∧
          ∀ w ∈ g, w ∈ cur ∨ w ∈ ws := by
  intro ws
  induction ws with
  | nil =>
    intro cur hcur c hc
    simp only [chunkWordsGo] at hc
    split at hc
    · simp at hc
    · next h =>
      rw [List.isEmpty_iff] at h
      simp only [List.mem_singleton] at hc
      subst hc
      exact ⟨cur, rfl, List.length_pos.mpr h, le_of_lt hcur,
        fun w hw => Or.inl hw⟩
  | cons w ws ih =>
    intro cur hcur c hc
    simp only [chunkWordsGo] at hc
    split at hc
    · next h =>
      have h' : cur.length + 1 = K := by simpa using h
      rcases List.mem_cons.mp hc with rfl | hc'
      · refine ⟨cur ++ [w], rfl, ?_, ?_, ?_⟩
        · simp
        · simp only [List.length_append, List.length_cons, List.length_nil]
          omega
        · intro x hx
          rcases List.mem_append.mp hx with hx' | hx'
          · exact Or.inl hx'
          · simp only [List.mem_singleton] at hx'
            subst hx'
            exact Or.inr (by simp)
      · obtain ⟨g, hg1, hg2, hg3, hg4⟩ := ih [] (by simp; omega) c hc'
        refine ⟨g, hg1, hg2, hg3, fun x hx => ?_⟩
        rcases hg4 x hx with hx' | hx'
        · simp at hx'
        · exact Or.inr (by simp [hx'])
    · next h =>
      have h' : cur.length + 1 ≠ K := by simpa using h
      have hlt : (cur ++ [w]).length < K := by
        simp only [List.length_append, List.length_cons, List.length_nil]
        omega
      obtain ⟨g, hg1, hg2, hg3, hg4⟩ := ih (cur ++ [w]) hlt c hc
      refine ⟨g, hg1, hg2, hg3, fun x hx => ?_⟩
      rcases hg4 x hx with hx' | hx'
      · rcases List.mem_append.mp hx' with hx'' | hx''
        · exact Or.inl hx''
        · simp only [List.mem_singleton] at hx''
          subst hx''
          exact Or.inr (by simp)
      · exact Or.inr (by simp [hx'])

theorem chunkWordsGo_dropLast (K : Nat) :
    ∀ (ws cur : List Str), cur.length < K →
      ∀ c ∈ (chunkWordsGo K cur ws).dropLast,
        ∃ g, c = joinSep [' '] g ∧ g.length = K ∧ ∀ w ∈ g, w ∈ cur ∨ w ∈ ws := by
  intro ws
  induction ws with
  | nil =>
    intro cur hcur c hc
    simp only [chunkWordsGo] at hc
    split at hc <;> simp at hc
  | cons w ws ih =>
    intro cur hcur c hc
    simp only [chunkWordsGo] at hc
    split at hc
    · next h =>
      have h' : cur.length + 1 = K := by simpa using h
      cases hrest : chunkWordsGo K [] ws with
      | nil =>
        rw [hrest, List.dropLast_single] at hc
        simp at hc
      | cons r rs =>
        rw [hrest, List.dropLast_cons₂] at hc
        rcases List.mem_cons.mp hc with rfl | hc'
        · refine ⟨cur ++ [w], rfl, by simpa using h', ?_⟩
          intro x hx
          rcases List.mem_append.mp hx with hx' | hx'
          · exact Or.inl hx'
          · simp only [List.mem_singleton] at hx'
            subst hx'
            exact Or.inr (by simp)
        · rw [← hrest] at hc'
          obtain ⟨g, hg1, hg2, hg3⟩ := ih [] (by simp; omega) c hc'
          refine ⟨g, hg1, hg2, fun x hx => ?_⟩
          rcases hg3 x hx with hx' | hx'
          · simp at hx'
          · exact Or.inr (by simp [hx'])
    · next h =>
      have h' : cur.length + 1 ≠ K := by simpa using h
      have hlt : (cur ++ [w]).length < K := by
        simp only [List.length_append, List.length_cons, List.length_nil]
        omega
      obtain ⟨g, hg1, hg2, hg3⟩ := ih (cur ++ [w]) hlt c hc
      refine ⟨g, hg1, hg2, fun x hx => ?_⟩
      rcases hg3 x hx with hx' | hx'
      · rcases List.mem_append.mp hx' with hx'' | hx''
        · exact Or.inl hx''
        · simp only [List.mem_singleton] at hx''
          subst hx''
          exact Or.inr (by simp)
      · exact Or.inr (by simp [hx'])

theorem joinSep_ne_nil :
    ∀ (g : List Str), (∀ w ∈ g, CleanWord w) → g ≠ [] → joinSep [' '] g ≠ [] := by
  intro g hclean hne
  cases g with
  | nil => exact absurd rfl hne
  | cons w t =>
    have hw := (hclean w (by simp)).1
    cases t with
    | nil => simpa [joinSep] using hw
    | cons w' t' =>
      simp only [joinSep]
      intro h
      rcases List.append_eq_nil.mp h with ⟨h1, _⟩
      rcases List.append_eq_nil.mp h1 with ⟨_, h2⟩
      simp at h2

theorem joinSep_clean_chars :
    ∀ (g : List Str), (∀ w ∈ g, CleanWord w) → g ≠ [] →
      (∀ c, (joinSep [' '] g).head? = some c → pyIsSpace c = false) ∧
      (∀ c, (joinSep [' '] g).getLast? = some c → pyIsSpace c = false) := by
  intro g
  induction g with
  | nil => intro _ h; exact absurd rfl h
  | cons w t ih =>
    intro hclean _
    have hw := hclean w (by simp)
    cases t with
    | nil =>
      have hj : joinSep [' '] [w] = w := by simp [joinSep]
      rw [hj]
      constructor
      · intro c hc
        exact hw.2 c (List.mem_of_mem_head? (by rw [hc]; simp))
      · intro c hc
        exact hw.2 c (List.mem_of_mem_getLast? (by rw [hc]; simp))
    | cons w' t' =>
      have hj : joinSep [' '] (w :: w' :: t') = (w ++ [' ']) ++ joinSep [' '] (w' :: t') := by
        simp [joinSep]
      have hclean' : ∀ x ∈ w' :: t', CleanWord x := fun x hx => hclean x (by simp [hx])
      have hjr : joinSep [' '] (w' :: t') ≠ [] :=
        joinSep_ne_nil (w' :: t') hclean' (by simp)
      obtain ⟨ih1, ih2⟩ := ih hclean' (by simp)
      rw [hj]
      constructor
      · intro c hc
        have hcw : c ∈ w := by
          cases hwc : w with
          | nil => exact absurd hwc hw.1
          | cons a t'' =>
            rw [hwc] at hc
            simp only [List.cons_append, List.head?_cons, Option.some.injEq] at hc
            rw [← hc]
            exact List.mem_cons_self _ _
        exact hw.2 c hcw
      · intro c hc
        rw [List.getLast?_append] at hc
        cases hlast : (joinSep [' '] (w' :: t')).getLast? with
        | none =>
          rw [List.getLast?_eq_none_iff] at hlast
          exact absurd hlast hjr
        | some y =>
          rw [hlast, Option.or_some] at hc
          have hyc : y = c := by simpa using hc
          subst hyc
          exact ih2 y hlast

theorem pyStrip_of_clean_ends (s : Str)
    (h1 : ∀ c, s.head? = some c → pyIsSpace c = false)
    (h2 : ∀ c, s.getLast? = some c → pyIsSpace c = false) :
    pyStrip s = s := by
  have hd : s.dropWhile pyIsSpace = s := by
    cases s with
    | nil => rfl
    | cons a t => rw [List.dropWhile_cons, if_neg (by simp [h1 a rfl])]
  have hd2 : s.reverse.dropWhile pyIsSpace = s.reverse := by
    cases hr : s.reverse with
    | nil => rfl
    | cons b r =>
      have hb : s.getLast? = some b := by
        rw [← List.head?_reverse, hr]
        rfl
      rw [List.dropWhile_cons, if_neg (by simp [h2 b hb])]
  unfold pyStrip
  rw [hd, hd2, List.reverse_reverse]

theorem pyStrip_joinSep (g : List Str) (hclean : ∀ w ∈ g, CleanWord w) (hne : g ≠ []) :
    pyStrip (joinSep [' '] g) = joinSep [' '] g :=
  pyStrip_of_clean_ends _ (joinSep_clean_chars g hclean hne).1
    (joinSep_clean_chars g hclean hne).2

theorem wordCount_joinSep (g : List Str) (hclean : ∀ w ∈ g, CleanWord w) (hne : g ≠ []) :
    wordCount (joinSep [' '] g) = g.length := by
  unfold wordCount
  rw [pySplitWs_joinSep g hclean hne]

theorem wordsOf_nil : wordsOf ([] : List Str) = [] := rfl

theorem splitText_eq_chunkWords (textLines : List Str) (K : Nat) (hK : 1 ≤ K)
    (hw : wordsOf textLines ≠ []) :
    splitTextIntoSegments textLines K = chunkWordsGo K [] (wordsOf textLines) := by
  have htl : textLines.isEmpty = false := by
    rw [List.isEmpty_eq_false]
    intro h
    subst h
    exact hw wordsOf_nil
  have hWlen : 1 ≤ (wordsOf textLines).length := List.length_pos.mpr hw
  have hlen := chunkWordsGo_length K hK (wordsOf textLines) [] (by simp; omega)
  have hsegs : (chunkWordsGo K [] (wordsOf textLines)).isEmpty = false := by
    rw [List.isEmpty_eq_false, ← List.length_pos, hlen]
    refine (Nat.one_le_div_iff (by omega)).mpr ?_
    simp only [List.length_nil]
    omega
  unfold splitTextIntoSegments
  rw [htl]
  simp only [Bool.false_eq_true, if_false]
  rw [if_neg (by simp [List.isEmpty_iff]; exact hw), if_neg (by simp only [hsegs]; exact Bool.false_ne_true)]

theorem chunkWordsGo_all (K : Nat) :
    ∀ (ws cur : List Str), cur.length < K → 0 < cur.length + ws.length →
      cur.length + ws.length ≤ K →
      chunkWordsGo K cur ws = [joinSep [' '] (cur ++ ws)] := by
  intro ws
  induction ws with
  | nil =>
    intro cur hcur hpos _
    have hne : cur ≠ [] := by
      intro h
      subst h
      simp at hpos
    simp only [chunkWordsGo, List.append_nil]
    rw [if_neg (by simpa [List.isEmpty_iff] using hne)]
  | cons w ws ih =>
    intro cur hcur hpos htot
    simp only [chunkWordsGo]
    split
    · next h =>
      have h' : cur.length + 1 = K := by simpa using h
      have hws : ws = [] := by
        have : ws.length = 0 := by
          simp only [List.length_cons] at htot
          omega
        exact List.length_eq_zero.mp this
      subst hws
      simp [chunkWordsGo]
    · next h =>
      have h' : cur.length + 1 ≠ K := by simpa using h
      have hlt : (cur ++ [w]).length < K := by
        simp only [List.length_append, List.length_cons, List.length_nil]
        simp only [List.length_cons] at htot
        omega
      rw [ih (cur ++ [w]) hlt (by simp) (by simp only [List.length_append,
        List.length_cons, List.length_nil] at htot ⊢; omega)]
      simp

/-- Claim C4 (amended): for a cue text of `W ≥ 1` words and `K ≥ 1`, the
text-splitting step produces exactly `ceil(W/K)` chunks, each with at most `K`
words and every chunk but the last with exactly `K` words; an empty or
whitespace-only text with at least one text line yields exactly one chunk with
empty text, while a cue with no text lines at all yields no chunks. -/
theorem splitText_chunk_counts (textLines : List Str) (K : Nat) (hK : 1 ≤ K) :
    (1 ≤ (wordsOf textLines).length →
      (splitTextIntoSegments textLines K).length = ((wordsOf textLines).length + K - 1) / K ∧
      (∀ c ∈ splitTextIntoSegments textLines K, wordCount c ≤ K) ∧
      (∀ c ∈ (splitTextIntoSegments textLines K).dropLast, wordCount c = K)) ∧
    (textLines ≠ [] → wordsOf textLines = [] → splitTextIntoSegments textLines K = [[]]) ∧
    (textLines = [] → splitTextIntoSegments textLines K = []) := by
  refine ⟨?_, ?_, ?_⟩
  · intro hW
    have hw : wordsOf textLines ≠ [] := by
      intro h
      rw [h] at hW
      simp at hW
    have heq := splitText_eq_chunkWords textLines K hK hw
    have hcw : ∀ w ∈ wordsOf textLines, CleanWord w := pySplitWs_clean _
    refine ⟨?_, ?_, ?_⟩
    · rw [heq, chunkWordsGo_length K hK _ [] (by simp; omega)]
      simp only [List.length_nil]
      congr 1
      omega
    · intro c hc
      rw [heq] at hc
      obtain ⟨g, rfl, hg1, hg2, hg3⟩ := chunkWordsGo_mem K _ [] (by simp; omega) c hc
      have hgclean : ∀ w ∈ g, CleanWord w := by
        intro w hwg
        rcases hg3 w hwg with h | h
        · simp at h
        · exact hcw w h
      rw [wordCount_joinSep g hgclean (List.length_pos.mp (by omega))]
      exact hg2
    · intro c hc
      rw [heq] at hc
      obtain ⟨g, rfl, hg1, hg2⟩ := chunkWordsGo_dropLast K _ [] (by simp; omega) c hc
      have hgclean : ∀ w ∈ g, CleanWord w := by
        intro w hwg
        rcases hg2 w hwg with h | h
        · simp at h
        · exact hcw w h
      rw [wordCount_joinSep g hgclean (List.length_pos.mp (by omega))]
      exact hg1
  · intro htl hwnil
    have htl' : textLines.isEmpty = false := by rwa [List.isEmpty_eq_false]
    unfold splitTextIntoSegments
    rw [htl']
    simp [hwnil]
  · intro h
    subst h
    rfl

/-- Witness for C4 at a five-word text and `max_words = 4`. -/
theorem splitText_chunk_counts_witness :
    1 ≤ (wordsOf ["one two three four five".data]).length ∧
    (splitTextIntoSegments ["one two three four five".data] 4).length =
      ((wordsOf ["one two three four five".data]).length + 4 - 1) / 4 ∧
    (∀ c ∈ splitTextIntoSegments ["one two three four five".data] 4, wordCount c ≤ 4) ∧
    (∀ c ∈ (splitTextIntoSegments ["one two three four five".data] 4).dropLast,
      wordCount c = 4) := by
  have h := (splitText_chunk_counts ["one two three four five".data] 4 (by norm_num)).1
    (by decide)
  exact ⟨by decide, h.1, h.2.1, h.2.2⟩

/-- Claim C5 (amended): re-running the segmenter performs no further reflow of
any emitted chunk's text — every chunk produced by the text-splitting step
re-splits to exactly itself under the same `max_words` — but the file-level
output is not byte-identical on its own output in general: the emitted block
separator is three newlines, so a second run reads each block after the first
with a leading newline and passes it through as malformed, adding one newline
per block boundary. -/
theorem splitText_stable_on_own_chunks (textLines : List Str) (K : Nat) (hK : 1 ≤ K) :
    ∀ c ∈ splitTextIntoSegments textLines K, splitTextIntoSegments [c] K = [c] := by
  intro c hc
  by_cases hw : wordsOf textLines = []
  · by_cases htl : textLines = []
    · subst htl
      simp only [splitTextIntoSegments, List.isEmpty_nil, if_true] at hc
      simp at hc
    · have htl' : textLines.isEmpty = false := by rwa [List.isEmpty_eq_false]
      have hval : splitTextIntoSegments textLines K = [[]] := by
        unfold splitTextIntoSegments
        rw [htl']
        simp [hw]
      rw [hval] at hc
      simp only [List.mem_singleton] at hc
      subst hc
      rfl
  · have heq := splitText_eq_chunkWords textLines K hK hw
    rw [heq] at hc
    have hcw : ∀ w ∈ wordsOf textLines, CleanWord w := pySplitWs_clean _
    obtain ⟨g, rfl, hg1, hg2, hg3⟩ := chunkWordsGo_mem K _ [] (by simp; omega) c hc
    have hgclean : ∀ w ∈ g, CleanWord w := by
      intro w hwg
      rcases hg3 w hwg with h | h
      · simp at h
      · exact hcw w h
    have hgne : g ≠ [] := List.length_pos.mp (by omega)
    have hstrip : pyStrip (joinSep [' '] g) = joinSep [' '] g := pyStrip_joinSep g hgclean hgne
    have hjne : joinSep [' '] g ≠ [] := joinSep_ne_nil g hgclean hgne
    have hwords : wordsOf [joinSep [' '] g] = g := by
      unfold wordsOf
      simp only [List.map_cons, List.map_nil, hstrip]
      rw [List.filter_cons, if_pos (by simpa [List.isEmpty_eq_false] using hjne)]
      simp only [List.filter_nil]
      have hjj : joinSep [' '] [joinSep [' '] g] = joinSep [' '] g := by simp [joinSep]
      rw [hjj]
      exact pySplitWs_joinSep g hgclean hgne
    have hWne : wordsOf [joinSep [' '] g] ≠ [] := by
      rw [hwords]
      exact hgne
    rw [splitText_eq_chunkWords [joinSep [' '] g] K hK hWne, hwords]
    exact chunkWordsGo_all K g [] (by simp; omega) (by simp; omega) (by simp; omega)

/-- Witness for C5: the first chunk of a six-word cue at `max_words = 4`
re-splits to exactly itself. -/
theorem splitText_stable_witness :
    splitTextIntoSegments ["hello world foo bar".data] 4 = ["hello world foo bar".data] :=
  splitText_stable_on_own_chunks ["hello world foo bar baz qux".data] 4 (by norm_num)
    "hello world foo bar".data (by decide)

/-- Claim C7 (amended): a block that is structurally malformed — fewer than two
lines, a non-digit index line, a timestamp line without `-->`, or a timestamp
line that does not split on ` --> ` into exactly two parts — is passed through
to the output unmodified (and never aborts processing of the file, the
embedding being total); a block whose timestamp values are malformed but whose
structure is intact instead parses to 0 ms and is re-emitted renumbered with
its original timestamp line and text. -/
theorem structurally_malformed_block_passthrough (block : Str) (maxWords idx : Nat)
    (hne : (pyStrip block).isEmpty = false)
    (hmal : (splitOnSep ['\n'] block).length < 2 ∨
      isDigitStr (pyStrip ((splitOnSep ['\n'] block).headD [])) = false ∨
      containsSeq arrowSeq ((splitOnSep ['\n'] block).getD 1 []) = false ∨
      (splitOnSep arrowSepSeq ((splitOnSep ['\n'] block).getD 1 [])).length ≠ 2) :
    processBlock block maxWords idx = ([.pass block], idx) := by
  unfold processBlock
  rw [hne]
  simp only [Bool.false_eq_true, if_false]
  cases hsplit : splitOnSep ['\n'] block with
  | nil => rfl
  | cons l0 rest =>
    cases rest with
    | nil => rfl
    | cons l1 textLines =>
      rw [hsplit] at hmal
      have hv : isDigitStr (pyStrip l0) = false ∨ containsSeq arrowSeq l1 = false ∨
          (splitOnSep arrowSepSeq l1).length ≠ 2 := by
        rcases hmal with h | h | h | h
        · simp only [List.length_cons] at h
          omega
        · left
          simpa using h
        · right
          left
          simpa using h
        · right
          right
          simpa using h
      by_cases hd : (!isDigitStr (pyStrip l0) || !containsSeq arrowSeq l1) = true
      · simp only [processLines, hd, if_true]
      · simp only [processLines, hd, Bool.false_eq_true, if_false]
        rw [Bool.not_eq_true] at hd
        have hlen : (splitOnSep arrowSepSeq l1).length ≠ 2 := by
          rcases hv with h | h | h
          · rw [h] at hd
            simp at hd
          · rw [h] at hd
            simp at hd
          · exact h
        cases hsp : splitOnSep arrowSepSeq l1 with
        | nil => rfl
        | cons x r1 =>
          cases r1 with
          | nil => rfl
          | cons y r2 =>
            cases r2 with
            | nil =>
              rw [hsp] at hlen
              simp at hlen
            | cons z r3 => rfl

/-- Witness for C7 at a block with a non-digit index line. -/
theorem structurally_malformed_block_passthrough_witness :
    processBlock "x\nno arrow here\nhello".data 4 5 =
      ([.pass "x\nno arrow here\nhello".data], 5) :=
  structurally_malformed_block_passthrough "x\nno arrow here\nhello".data 4 5
    (by decide) (by decide)

/-! ## Claim C6 — renumbering invariant -/

theorem cueIndices_nil : cueIndices [] = [] := rfl

theorem cueIndices_cons_cue (i : Nat) (ts t : Str) (bs : List OutBlock) :
    cueIndices (.cue i ts t :: bs) = i :: cueIndices bs := rfl

theorem cueIndices_cons_pass (s : Str) (bs : List OutBlock) :
    cueIndices (.pass s :: bs) = cueIndices bs := rfl

theorem cueIndices_append (bs cs : List OutBlock) :
    cueIndices (bs ++ cs) = cueIndices bs ++ cueIndices cs := by
  unfold cueIndices
  exact List.filterMap_append bs cs _

theorem emitChunks_indices : ∀ (cs : List Chunk) (i : Nat),
    cueIndices (emitChunks i cs) = List.range' i cs.length := by
  intro cs
  induction cs with
  | nil => intro i; rfl
  | cons c cs ih =>
    intro i
    rw [List.length_cons, List.range'_succ]
    show cueIndices (.cue i (chunkTsLine c) c.text :: emitChunks (i + 1) cs) = _
    rw [cueIndices_cons_cue, ih (i + 1)]

theorem processCue_indices (tsLine sPart ePart : Str) (textLines : List Str) (K i : Nat) :
    ∃ n, (processCue tsLine sPart ePart textLines K i).2 = i + n ∧
      cueIndices (processCue tsLine sPart ePart textLines K i).1 = List.range' i n := by
  unfold processCue
  dsimp only
  split
  · exact ⟨1, rfl, by rw [cueIndices_cons_cue, cueIndices_nil, List.range'_one]⟩
  · split
    · exact ⟨0, rfl, rfl⟩
    · split
      · exact ⟨1, rfl, by rw [cueIndices_cons_cue, cueIndices_nil, List.range'_one]⟩
      · refine ⟨(cueChunks (parse_timestamp_to_ms (pyStrip sPart))
          (parse_timestamp_to_ms (pyStrip ePart)) textLines K).length, rfl, ?_⟩
        exact emitChunks_indices _ i

theorem processBlock_indices (b : Str) (K i : Nat) :
    ∃ n, (processBlock b K i).2 = i + n ∧
      cueIndices (processBlock b K i).1 = List.range' i n := by
  unfold processBlock
  split
  · exact ⟨0, rfl, rfl⟩
  · cases splitOnSep ['\n'] b with
    | nil => exact ⟨0, rfl, rfl⟩
    | cons l0 rest =>
      cases rest with
      | nil => exact ⟨0, rfl, rfl⟩
      | cons l1 textLines =>
        simp only [processLines]
        split
        · exact ⟨0, rfl, rfl⟩
        · cases splitOnSep arrowSepSeq l1 with
          | nil => exact ⟨0, rfl, rfl⟩
          | cons x r1 =>
            cases r1 with
            | nil => exact ⟨0, rfl, rfl⟩
            | cons y r2 =>
              cases r2 with
              | nil => exact processCue_indices l1 x y textLines K i
              | cons z r3 => exact ⟨0, rfl, rfl⟩

theorem processAll_indices (K : Nat) : ∀ (bs : List Str) (i : Nat),
    ∃ n, cueIndices (processAll K bs i) = List.range' i n := by
  intro bs
  induction bs with
  | nil => intro i; exact ⟨0, rfl⟩
  | cons b bs ih =>
    intro i
    obtain ⟨m, hm2, hm1⟩ := processBlock_indices b K i
    obtain ⟨n, hn⟩ := ih (processBlock b K i).2
    refine ⟨n + m, ?_⟩
    show cueIndices ((processBlock b K i).1 ++ processAll K bs (processBlock b K i).2) = _
    rw [cueIndices_append, hm1, hm2] at *
    rw [hn]
    have := List.range'_append i m n 1
    simpa using this

/-- Claim C6 (amended): the processed (renumbered) cues of the reformatter
output carry the consecutive indices 1, 2, 3, ... in order across the whole
file; malformed pass-through blocks keep their original first line and do not
consume an index, so the output file's index lines need not all be
consecutive. -/
theorem processed_cue_indices_consecutive (content : Str) (maxWords : Nat) :
    cueIndices (reformatBlocks content maxWords) =
      List.range' 1 (cueIndices (reformatBlocks content maxWords)).length := by
  obtain ⟨n, hn⟩ := processAll_indices maxWords (splitOnSep blankSepSeq (pyStrip content)) 1
  unfold reformatBlocks
  rw [hn, List.length_range']

/-! ## Claims C2 and C3 — chunk retiming invariants -/

theorem lastStop_cons₂ (c d : Chunk) (cs : List Chunk) :
    lastStop (c :: d :: cs) = lastStop (d :: cs) := by
  unfold lastStop
  rw [List.getLast?_cons_cons]

theorem segLoop_nil (origEnd minDur per cur : ℚ) :
    segLoop origEnd minDur per [] cur = [] := rfl

theorem segLoop_single (origEnd minDur per cur : ℚ) (t : Str) :
    segLoop origEnd minDur per [t] cur =
      (let e1 := if origEnd < cur + minDur then cur + minDur else origEnd
       let e2 := if e1 > origEnd then origEnd else e1
       if cur ≥ e2 then [] else [⟨t, cur, e2⟩]) := rfl

theorem segLoop_cons₂ (origEnd minDur per cur : ℚ) (t r : Str) (rs : List Str) :
    segLoop origEnd minDur per (t :: r :: rs) cur =
      (let e1 := if cur + per < cur + minDur then cur + minDur else cur + per
       let e2 := if e1 > origEnd then origEnd else e1
       if cur ≥ e2 then segLoop origEnd minDur per (r :: rs) e2
       else ⟨t, cur, e2⟩ ::
         (if e2 ≥ origEnd then [] else segLoop origEnd minDur per (r :: rs) e2)) := rfl

theorem lastStop_singleton (c : Chunk) : lastStop [c] = some c.stop := by
  simp [lastStop]

theorem segLoop_invariants (origEnd minDur per : ℚ) (hmin : 0 < minDur) :
    ∀ (texts : List Str) (cur : ℚ), cur < origEnd → texts ≠ [] →
      segLoop origEnd minDur per texts cur ≠ [] ∧
      Chained cur (segLoop origEnd minDur per texts cur) ∧
      (∀ c ∈ segLoop origEnd minDur per texts cur,
        cur ≤ c.start ∧ c.start < c.stop ∧ c.stop ≤ origEnd ∧
        (minDur ≤ c.stop - c.start ∨ c.stop = origEnd)) ∧
      lastStop (segLoop origEnd minDur per texts cur) = some origEnd := by
  intro texts
  induction texts with
  | nil =>
    intro cur _ hne
    exact absurd rfl hne
  | cons t rest ih =>
    intro cur hcur _
    cases rest with
    | nil =>
      rw [segLoop_single]
      dsimp only
      have he2 : (if (if origEnd < cur + minDur then cur + minDur else origEnd) > origEnd
          then origEnd else (if origEnd < cur + minDur then cur + minDur else origEnd)) =
          origEnd := by
        by_cases h1 : origEnd < cur + minDur
        · rw [if_pos h1, if_pos h1]
        · rw [if_neg h1, if_neg (lt_irrefl origEnd)]
      rw [he2, if_neg (not_le.mpr hcur)]
      refine ⟨by simp, ⟨rfl, trivial⟩, ?_, by rw [lastStop_singleton]⟩
      intro c hc
      simp only [List.mem_singleton] at hc
      subst hc
      exact ⟨le_refl _, hcur, le_refl _, Or.inr rfl⟩
    | cons r rs =>
      rw [segLoop_cons₂]
      dsimp only
      have he1 : cur + minDur ≤
          (if cur + per < cur + minDur then cur + minDur else cur + per) := by
        by_cases h1 : cur + per < cur + minDur
        · rw [if_pos h1]
        · rw [if_neg h1]
          exact le_of_not_lt h1
      set e1 := if cur + per < cur + minDur then cur + minDur else cur + per with he1def
      set e2 := if e1 > origEnd then origEnd else e1 with he2def
      have he2a : e2 = origEnd ∨ e2 = e1 := by
        rw [he2def]
        by_cases h1 : e1 > origEnd
        · rw [if_pos h1]
          exact Or.inl rfl
        · rw [if_neg h1]
          exact Or.inr rfl
      have he2le : e2 ≤ origEnd := by
        rw [he2def]
        by_cases h1 : e1 > origEnd
        · rw [if_pos h1]
        · rw [if_neg h1]
          exact le_of_not_lt h1
      have he2gt : cur < e2 := by
        rw [he2def]
        by_cases h1 : e1 > origEnd
        · rw [if_pos h1]
          exact hcur
        · rw [if_neg h1]
          calc cur < cur + minDur := by linarith
            _ ≤ e1 := he1
      rw [if_neg (not_le.mpr he2gt)]
      by_cases hend : e2 ≥ origEnd
      · have he2eq : e2 = origEnd := le_antisymm he2le hend
        rw [if_pos hend]
        refine ⟨by simp, ⟨rfl, trivial⟩, ?_, by rw [lastStop_singleton, he2eq]⟩
        intro c hc
        simp only [List.mem_singleton] at hc
        subst hc
        exact ⟨le_refl _, he2gt, he2le, Or.inr he2eq⟩
      · rw [if_neg hend]
        have hcur2 : e2 < origEnd := lt_of_not_ge hend
        obtain ⟨hne2, hch2, hmem2, hlast2⟩ := ih e2 hcur2 (by simp)
        have hmindur : minDur ≤ e2 - cur := by
          rcases he2a with h | h
          · exact absurd h (by intro hh; rw [hh] at hcur2; exact lt_irrefl _ hcur2)
          · rw [h]
            linarith
        refine ⟨by simp, ⟨rfl, hch2⟩, ?_, ?_⟩
        · intro c hc
          rcases List.mem_cons.mp hc with rfl | hcmem
          · exact ⟨le_refl _, he2gt, he2le, Or.inl (by linarith)⟩
          · obtain ⟨h1, h2, h3, h4⟩ := hmem2 c hcmem
            exact ⟨le_trans (le_of_lt he2gt) h1, h2, h3, h4⟩
        · cases hsl : segLoop origEnd minDur per (r :: rs) e2 with
          | nil => exact absurd hsl hne2
          | cons d ds =>
            rw [lastStop_cons₂, ← hsl]
            exact hlast2

theorem splitText_head_nonempty (textLines : List Str) (K : Nat) (hK : 1 ≤ K)
    (hW : wordsOf textLines ≠ []) :
    (pyStrip ((splitTextIntoSegments textLines K).headD [])).isEmpty = false := by
  rw [splitText_eq_chunkWords textLines K hK hW]
  have hcw : ∀ w ∈ wordsOf textLines, CleanWord w := pySplitWs_clean _
  cases hch : chunkWordsGo K [] (wordsOf textLines) with
  | nil =>
    have hlen := chunkWordsGo_length K hK (wordsOf textLines) [] (by simp; omega)
    rw [hch] at hlen
    have hWlen : 1 ≤ (wordsOf textLines).length := List.length_pos.mpr hW
    simp only [List.length_nil] at hlen
    symm at hlen
    rw [Nat.div_eq_zero_iff (by omega)] at hlen
    omega
  | cons c cs =>
    have hc : c ∈ chunkWordsGo K [] (wordsOf textLines) := by
      rw [hch]
      exact List.mem_cons_self _ _
    obtain ⟨g, rfl, hg1, _, hg3⟩ := chunkWordsGo_mem K _ [] (by simp; omega) c hc
    have hgclean : ∀ w ∈ g, CleanWord w := by
      intro w hwg
      rcases hg3 w hwg with h | h
      · simp at h
      · exact hcw w h
    have hgne : g ≠ [] := List.length_pos.mp (by omega)
    show (pyStrip ((joinSep [' '] g :: cs).headD [])).isEmpty = false
    simp only [List.headD_cons]
    rw [pyStrip_joinSep g hgclean hgne, List.isEmpty_eq_false]
    exact joinSep_ne_nil g hgclean hgne

theorem cueChunks_words_nil (startMs endMs : Int) (textLines : List Str) (K : Nat)
    (hW : wordsOf textLines = []) : cueChunks startMs endMs textLines K = [] := by
  by_cases htl : textLines = []
  · subst htl
    rfl
  · have htl2 : textLines.isEmpty = false := by rwa [List.isEmpty_eq_false]
    have hval : splitTextIntoSegments textLines K = [[]] := by
      unfold splitTextIntoSegments
      rw [htl2]
      simp [hW]
    unfold cueChunks
    rw [hval]
    rfl

theorem cueChunks_split (startMs endMs : Int) (textLines : List Str) (K : Nat)
    (hK : 1 ≤ K) (hW : wordsOf textLines ≠ []) :
    (cueChunks startMs endMs textLines K =
      [⟨(splitTextIntoSegments textLines K).headD [], (startMs : ℚ), (endMs : ℚ)⟩] ∧
      (splitTextIntoSegments textLines K).length = 1) ∨
    (cueChunks startMs endMs textLines K =
      segLoop (endMs : ℚ) 200
        (((endMs - startMs : Int) : ℚ) / ((splitTextIntoSegments textLines K).length : ℚ))
        (splitTextIntoSegments textLines K) (startMs : ℚ) ∧
      2 ≤ (splitTextIntoSegments textLines K).length) := by
  have hhead := splitText_head_nonempty textLines K hK hW
  have hlen := chunkWordsGo_length K hK (wordsOf textLines) [] (by simp; omega)
  have hWlen : 1 ≤ (wordsOf textLines).length := List.length_pos.mpr hW
  have hlen1 : 1 ≤ (splitTextIntoSegments textLines K).length := by
    rw [splitText_eq_chunkWords textLines K hK hW, hlen]
    refine (Nat.one_le_div_iff (by omega)).mpr ?_
    simp only [List.length_nil]
    omega
  have hcond : ¬((splitTextIntoSegments textLines K).length = 0 ∨
      ((splitTextIntoSegments textLines K).length = 1 ∧
        (pyStrip ((splitTextIntoSegments textLines K).headD [])).isEmpty = true)) := by
    rintro (h | ⟨_, h2⟩)
    · omega
    · rw [hhead] at h2
      exact Bool.false_ne_true h2
  unfold cueChunks
  dsimp only
  rw [if_neg hcond]
  by_cases hL1 : (splitTextIntoSegments textLines K).length = 1
  · left
    exact ⟨by rw [if_pos hL1], hL1⟩
  · right
    exact ⟨by rw [if_neg hL1], by omega⟩

/-- Claim C3: for every well-formed cue with positive duration, the chunks the
Caption Segmenter emits are consecutive — the first starts at the cue start
and each subsequent chunk starts where the previous one ended — every chunk
interval is contained within the original [start, end], and the last emitted
chunk's end equals the original cue end exactly. -/
theorem cueChunks_contiguous (startMs endMs : Int) (textLines : List Str) (K : Nat)
    (hK : 1 ≤ K) (hdur : 0 < endMs - startMs) (hW : wordsOf textLines ≠ []) :
    cueChunks startMs endMs textLines K ≠ [] ∧
    Chained (startMs : ℚ) (cueChunks startMs endMs textLines K) ∧
    (∀ c ∈ cueChunks startMs endMs textLines K,
      (startMs : ℚ) ≤ c.start ∧ c.start < c.stop ∧ c.stop ≤ (endMs : ℚ)) ∧
    lastStop (cueChunks startMs endMs textLines K) = some (endMs : ℚ) := by
  have hQ : (startMs : ℚ) < (endMs : ℚ) := by
    have h : startMs < endMs := by omega
    exact_mod_cast h
  rcases cueChunks_split startMs endMs textLines K hK hW with ⟨heq, _⟩ | ⟨heq, hL2⟩
  · rw [heq]
    refine ⟨by simp, ⟨rfl, trivial⟩, ?_, by rw [lastStop_singleton]⟩
    intro c hc
    simp only [List.mem_singleton] at hc
    subst hc
    exact ⟨le_refl _, hQ, le_refl _⟩
  · have hne : splitTextIntoSegments textLines K ≠ [] := by
      intro h
      rw [h] at hL2
      simp at hL2
    obtain ⟨ha, hb, hc, hd⟩ := segLoop_invariants (endMs : ℚ) 200
      (((endMs - startMs : Int) : ℚ) / ((splitTextIntoSegments textLines K).length : ℚ))
      (by norm_num) (splitTextIntoSegments textLines K) (startMs : ℚ) hQ hne
    rw [heq]
    exact ⟨ha, hb, fun c hcm => ⟨(hc c hcm).1, (hc c hcm).2.1, (hc c hcm).2.2.1⟩, hd⟩

/-- Witness for C3 at the cue [0, 4000] with eight words and `max_words = 4`. -/
theorem cueChunks_contiguous_witness :
    cueChunks 0 4000 ["a b c d e f g h".data] 4 ≠ [] ∧
    Chained ((0 : Int) : ℚ) (cueChunks 0 4000 ["a b c d e f g h".data] 4) ∧
    (∀ c ∈ cueChunks 0 4000 ["a b c d e f g h".data] 4,
      ((0 : Int) : ℚ) ≤ c.start ∧ c.start < c.stop ∧ c.stop ≤ ((4000 : Int) : ℚ)) ∧
    lastStop (cueChunks 0 4000 ["a b c d e f g h".data] 4) = some ((4000 : Int) : ℚ) :=
  cueChunks_contiguous 0 4000 ["a b c d e f g h".data] 4 (by norm_num) (by decide)
    (by decide)

/-- Counterexample to C2 as stated: cue [0ms, 300ms] with eight words at
`max_words = 4` yields two chunks; the second spans [200, 300], a duration of
100ms < 200ms, and the cue has 8 > 4 words, so neither disjunct of the claim
holds for it. -/
theorem chunk_min_duration_counterexample :
    cueChunks 0 300 ["one two three four five six seven eight".data] 4 =
      [⟨"one two three four".data, 0, 200⟩, ⟨"five six seven eight".data, 200, 300⟩] ∧
    ¬((200 : ℚ) ≤ 300 - 200) ∧
    (wordsOf ["one two three four five six seven eight".data]).length = 8 ∧
    ¬((8 : Nat) ≤ 4) := by
  refine ⟨?_, by norm_num, by decide, by norm_num⟩
  have hW : wordsOf ["one two three four five six seven eight".data] ≠ [] := by decide
  have hsegs : splitTextIntoSegments ["one two three four five six seven eight".data] 4 =
      ["one two three four".data, "five six seven eight".data] := by decide
  rcases cueChunks_split 0 300 ["one two three four five six seven eight".data] 4
      (by norm_num) hW with ⟨_, hL1⟩ | ⟨heq, _⟩
  · rw [hsegs] at hL1
    simp at hL1
  · rw [hsegs] at heq
    rw [heq]
    norm_num [segLoop_cons₂, segLoop_single]

/-- Claim C2 (amended): for every positive-duration cue, every emitted chunk
has duration at least 200ms or has its end capped at the original cue end
(the 200ms floor is capped so a chunk never exceeds the original end, which
can leave the capped chunk shorter than 200ms); when the cue's word count is
at most `max_words`, the single emitted chunk keeps exactly the original cue
timing. -/
theorem cueChunks_min_duration_or_capped (startMs endMs : Int) (textLines : List Str)
    (K : Nat) (hK : 1 ≤ K) (hdur : 0 < endMs - startMs) :
    (∀ c ∈ cueChunks startMs endMs textLines K,
      200 ≤ c.stop - c.start ∨ c.stop = (endMs : ℚ)) ∧
    ((wordsOf textLines).length ≤ K → wordsOf textLines ≠ [] →
      cueChunks startMs endMs textLines K =
        [⟨joinSep [' '] (wordsOf textLines), (startMs : ℚ), (endMs : ℚ)⟩]) := by
  have hQ : (startMs : ℚ) < (endMs : ℚ) := by
    have h : startMs < endMs := by omega
    exact_mod_cast h
  constructor
  · intro c hc
    by_cases hW : wordsOf textLines = []
    · rw [cueChunks_words_nil startMs endMs textLines K hW] at hc
      simp at hc
    · rcases cueChunks_split startMs endMs textLines K hK hW with ⟨heq, _⟩ | ⟨heq, hL2⟩
      · rw [heq] at hc
        simp only [List.mem_singleton] at hc
        subst hc
        exact Or.inr rfl
      · rw [heq] at hc
        have hne : splitTextIntoSegments textLines K ≠ [] := by
          intro h
          rw [h] at hL2
          simp at hL2
        obtain ⟨_, _, hmem, _⟩ := segLoop_invariants (endMs : ℚ) 200
          (((endMs - startMs : Int) : ℚ) / ((splitTextIntoSegments textLines K).length : ℚ))
          (by norm_num) (splitTextIntoSegments textLines K) (startMs : ℚ) hQ hne
        exact (hmem c hc).2.2.2
  · intro hWK hWne
    have heqc := splitText_eq_chunkWords textLines K hK hWne
    have hall := chunkWordsGo_all K (wordsOf textLines) []
      (by simp; omega)
      (by simp only [List.length_nil, Nat.zero_add]; exact List.length_pos.mpr hWne)
      (by simp only [List.length_nil, Nat.zero_add]; exact hWK)
    rcases cueChunks_split startMs endMs textLines K hK hWne with ⟨heq, _⟩ | ⟨heq, hL2⟩
    · rw [heq, heqc, hall]
      simp
    · rw [heqc, hall] at hL2
      simp at hL2

/-- Witness for the amended C2 at the counterexample cue [0, 300] with eight
words and at a two-word cue [0, 500]. -/
theorem cueChunks_min_duration_or_capped_witness :
    (∀ c ∈ cueChunks 0 300 ["one two three four five six seven eight".data] 4,
      200 ≤ c.stop - c.start ∨ c.stop = ((300 : Int) : ℚ)) ∧
    ((wordsOf ["alpha beta".data]).length ≤ 4 → wordsOf ["alpha beta".data] ≠ [] →
      cueChunks 0 500 ["alpha beta".data] 4 =
        [⟨joinSep [' '] (wordsOf ["alpha beta".data]), ((0 : Int) : ℚ), ((500 : Int) : ℚ)⟩]) :=
  ⟨(cueChunks_min_duration_or_capped 0 300
      ["one two three four five six seven eight".data] 4 (by norm_num) (by decide)).1,
    (cueChunks_min_duration_or_capped 0 500 ["alpha beta".data] 4 (by norm_num)
      (by decide)).2⟩

/-! ## Claim C10 — timestamp round trip -/

theorem digitChar_val (m : Nat) (h : m < 10) :
    (Nat.digitChar m).toNat - '0'.toNat = m := by
  interval_cases m <;> decide

theorem digitChar_isDigit (m : Nat) (h : m < 10) : pyIsDigit (Nat.digitChar m) = true := by
  interval_cases m <;> decide

theorem parseNatDigits_append (xs : Str) (c : Char) :
    parseNatDigits (xs ++ [c]) = parseNatDigits xs * 10 + (c.toNat - '0'.toNat) := by
  unfold parseNatDigits
  rw [List.foldl_append]
  rfl

theorem natToDigitsGo_spec : ∀ (fuel n : Nat), n < fuel →
    parseNatDigits (natToDigitsGo fuel n) = n ∧
    natToDigitsGo fuel n ≠ [] ∧
    ∀ c ∈ natToDigitsGo fuel n, pyIsDigit c = true := by
  intro fuel
  induction fuel with
  | zero => intro n h; omega
  | succ fuel ih =>
    intro n h
    unfold natToDigitsGo
    by_cases h10 : n < 10
    · rw [if_pos h10]
      refine ⟨?_, by simp, ?_⟩
      · show parseNatDigits ([] ++ [Nat.digitChar n]) = n
        rw [parseNatDigits_append, digitChar_val n h10]
        simp [parseNatDigits]
      · intro c hc
        simp only [List.mem_singleton] at hc
        subst hc
        exact digitChar_isDigit n h10
    · rw [if_neg h10]
      have hn0 : 0 < n := by omega
      have hdiv : n / 10 < fuel := by
        have h1 : n / 10 < n := Nat.div_lt_self hn0 (by norm_num)
        omega
      obtain ⟨ih1, ih2, ih3⟩ := ih (n / 10) hdiv
      refine ⟨?_, by simp [ih2], ?_⟩
      · rw [parseNatDigits_append, ih1, digitChar_val (n % 10) (Nat.mod_lt n (by norm_num))]
        omega
      · intro c hc
        rcases List.mem_append.mp hc with hc' | hc'
        · exact ih3 c hc'
        · simp only [List.mem_singleton] at hc'
          subst hc'
          exact digitChar_isDigit (n % 10) (Nat.mod_lt n (by norm_num))

theorem natToDigits_spec (n : Nat) :
    parseNatDigits (natToDigits n) = n ∧ natToDigits n ≠ [] ∧
    ∀ c ∈ natToDigits n, pyIsDigit c = true :=
  natToDigitsGo_spec (n + 1) n (by omega)

theorem parseNatDigits_replicate_zero (k : Nat) (xs : Str) :
    parseNatDigits (List.replicate k '0' ++ xs) = parseNatDigits xs := by
  induction k with
  | zero => simp
  | succ k ih =>
    rw [List.replicate_succ, List.cons_append]
    show List.foldl _ (0 * 10 + ('0'.toNat - '0'.toNat)) _ = _
    have hz : 0 * 10 + ('0'.toNat - '0'.toNat) = 0 := by decide
    rw [hz]
    exact ih

theorem padZeros_digits (w k : Nat) : ∀ c ∈ padZeros w k, pyIsDigit c = true := by
  intro c hc
  unfold padZeros at hc
  rcases List.mem_append.mp hc with hc' | hc'
  · rw [List.eq_of_mem_replicate hc']
    decide
  · exact (natToDigits_spec k).2.2 c hc'

theorem padZeros_parse (w k : Nat) : parseNatDigits (padZeros w k) = k := by
  unfold padZeros
  rw [parseNatDigits_replicate_zero]
  exact (natToDigits_spec k).1

theorem padZeros_ne_nil (w k : Nat) : padZeros w k ≠ [] := by
  unfold padZeros
  intro h
  rcases List.append_eq_nil.mp h with ⟨_, h2⟩
  exact (natToDigits_spec k).2.1 h2

theorem pyIsDigit_not_space (c : Char) (h : pyIsDigit c = true) : pyIsSpace c = false := by
  by_contra hs
  rw [Bool.not_eq_false] at hs
  simp only [pyIsSpace, Bool.or_eq_true, decide_eq_true_eq] at hs
  rcases hs with ((((h1 | h1) | h1) | h1) | h1) | h1 <;>
    (subst h1; revert h; decide)

theorem pyStrip_of_no_space (s : Str) (h : ∀ c ∈ s, pyIsSpace c = false) :
    pyStrip s = s := by
  apply pyStrip_of_clean_ends
  · intro c hc
    exact h c (List.mem_of_mem_head? (by rw [hc]; simp))
  · intro c hc
    exact h c (List.mem_of_mem_getLast? (by rw [hc]; simp))

theorem padZeros_head_digit (w k : Nat) :
    pyIsDigit ((padZeros w k).headD ' ') = true := by
  unfold padZeros
  cases hw : w - (natToDigits k).length with
  | zero =>
    simp only [List.replicate_zero, List.nil_append]
    cases hd : natToDigits k with
    | nil => exact absurd hd (natToDigits_spec k).2.1
    | cons d ds =>
      simp only [List.headD_cons]
      exact (natToDigits_spec k).2.2 d (by rw [hd]; exact List.mem_cons_self _ _)
  | succ j =>
    rw [List.replicate_succ, List.cons_append, List.headD_cons]
    decide

theorem pyIntOfStr_padZeros (w k : Nat) : pyIntOfStr (padZeros w k) = some (k : Int) := by
  have hstrip : pyStrip (padZeros w k) = padZeros w k :=
    pyStrip_of_no_space _ (fun c hc => pyIsDigit_not_space c (padZeros_digits w k c hc))
  have hhead := padZeros_head_digit w k
  unfold pyIntOfStr
  dsimp only
  rw [hstrip]
  rw [if_neg (by simpa [List.isEmpty_eq_false] using padZeros_ne_nil w k)]
  rw [if_neg (by intro h; rw [h] at hhead; revert hhead; decide)]
  rw [if_neg (by intro h; rw [h] at hhead; revert hhead; decide)]
  rw [if_pos (by rw [List.all_eq_true]; intro c hc; exact padZeros_digits w k c (by simpa using hc))]
  rw [padZeros_parse]

theorem prefixMatch_single (c a : Char) (t : Str) :
    prefixMatch [c] (a :: t) = decide (c = a) := by
  simp [prefixMatch]

theorem splitOnSepGo_cons (sep : Str) (fuel : Nat) (acc : Str) (a : Char) (t : Str) :
    splitOnSepGo sep (fuel + 1) acc (a :: t) =
      if prefixMatch sep (a :: t) then
        acc.reverse :: splitOnSepGo sep fuel [] (List.drop sep.length (a :: t))
      else splitOnSepGo sep fuel (a :: acc) t := rfl

theorem splitOnSepGo_no_sep (c : Char) :
    ∀ (s acc : Str) (fuel : Nat), c ∉ s →
      splitOnSepGo [c] fuel acc s = [acc.reverse ++ s] := by
  intro s
  induction s with
  | nil =>
    intro acc fuel _
    cases fuel with
    | zero => rfl
    | succ fuel => simp [splitOnSepGo]
  | cons a t ih =>
    intro acc fuel h
    have hca : ¬(c = a) := fun hh => h (by simp [hh])
    cases fuel with
    | zero => rfl
    | succ fuel =>
      rw [splitOnSepGo_cons, prefixMatch_single, if_neg (by simp [hca])]
      rw [ih (a :: acc) fuel (fun hh => h (by simp [hh]))]
      simp

theorem splitOnSepGo_sep (c : Char) :
    ∀ (A B acc : Str) (fuel : Nat), c ∉ A → c ∉ B → (A ++ c :: B).length ≤ fuel →
      splitOnSepGo [c] fuel acc (A ++ c :: B) = [acc.reverse ++ A, B] := by
  intro A
  induction A with
  | nil =>
    intro B acc fuel _ hB hf
    cases fuel with
    | zero => simp at hf
    | succ fuel =>
      simp only [List.nil_append]
      rw [splitOnSepGo_cons, prefixMatch_single, if_pos (by simp)]
      simp only [List.length_cons, List.length_nil, List.drop_succ_cons, List.drop_zero]
      rw [splitOnSepGo_no_sep c B [] fuel hB]
      simp
  | cons a A ih =>
    intro B acc fuel hA hB hf
    have hca : ¬(c = a) := fun hh => hA (by simp [hh])
    cases fuel with
    | zero => simp at hf
    | succ fuel =>
      simp only [List.cons_append]
      rw [splitOnSepGo_cons, prefixMatch_single, if_neg (by simp [hca])]
      rw [ih B (a :: acc) fuel (fun hh => hA (by simp [hh])) hB
        (by simp only [List.cons_append, List.length_cons] at hf; omega)]
      simp

theorem splitOnSepGo_sep₂ (c : Char) :
    ∀ (H M S acc : Str) (fuel : Nat), c ∉ H → c ∉ M → c ∉ S →
      (H ++ c :: (M ++ c :: S)).length ≤ fuel →
      splitOnSepGo [c] fuel acc (H ++ c :: (M ++ c :: S)) = [acc.reverse ++ H, M, S] := by
  intro H
  induction H with
  | nil =>
    intro M S acc fuel _ hM hS hf
    cases fuel with
    | zero => simp at hf
    | succ fuel =>
      simp only [List.nil_append]
      rw [splitOnSepGo_cons, prefixMatch_single, if_pos (by simp)]
      simp only [List.length_cons, List.length_nil, List.drop_succ_cons, List.drop_zero]
      rw [splitOnSepGo_sep c M S [] fuel hM hS (by simp only [List.nil_append,
        List.length_cons, List.length_append] at hf ⊢; omega)]
      simp
  | cons a H ih =>
    intro M S acc fuel hH hM hS hf
    have hca : ¬(c = a) := fun hh => hH (by simp [hh])
    cases fuel with
    | zero => simp at hf
    | succ fuel =>
      simp only [List.cons_append]
      rw [splitOnSepGo_cons, prefixMatch_single, if_neg (by simp [hca])]
      rw [ih M S (a :: acc) fuel (fun hh => hH (by simp [hh])) hM hS
        (by simp only [List.cons_append, List.length_cons] at hf; omega)]
      simp

theorem splitOnSep_two (c : Char) (A B : Str) (hA : c ∉ A) (hB : c ∉ B) :
    splitOnSep [c] (A ++ c :: B) = [A, B] := by
  unfold splitOnSep
  rw [splitOnSepGo_sep c A B [] (A ++ c :: B).length.succ hA hB (by omega)]
  simp

theorem splitOnSep_three (c : Char) (H M S : Str) (hH : c ∉ H) (hM : c ∉ M) (hS : c ∉ S) :
    splitOnSep [c] (H ++ c :: (M ++ c :: S)) = [H, M, S] := by
  unfold splitOnSep
  rw [splitOnSepGo_sep₂ c H M S [] (H ++ c :: (M ++ c :: S)).length.succ hH hM hS (by omega)]
  simp

theorem parseCommaParts_pair (x y : Str) :
    parseCommaParts [x, y] = parseColonParts y (splitOnSep [':'] x) := rfl

theorem comma_not_mem_padZeros (w k : Nat) : ',' ∉ padZeros w k := by
  intro h
  have hd := padZeros_digits w k ',' h
  exact absurd hd (by decide)

theorem colon_not_mem_padZeros (w k : Nat) : ':' ∉ padZeros w k := by
  intro h
  have hd := padZeros_digits w k ':' h
  exact absurd hd (by decide)

/-- Claim C10: formatting an arbitrary nonnegative millisecond count to
`HH:MM:SS,mmm` and parsing it back is lossless. -/
theorem timestamp_roundtrip (ms : Nat) :
    parse_timestamp_to_ms (format_ms_to_timestamp (ms : Int)) = (ms : Int) := by
  have htm : ((ms : Int)).toNat = ms := Int.toNat_ofNat ms
  have hfmt : format_ms_to_timestamp (ms : Int) =
      (padZeros 2 (ms / 1000 / 60 / 60) ++
        ':' :: (padZeros 2 (ms / 1000 / 60 % 60) ++ ':' :: padZeros 2 (ms / 1000 % 60))) ++
        ',' :: padZeros 3 (ms % 1000) := by
    unfold format_ms_to_timestamp
    dsimp only
    rw [htm]
    simp [List.cons_append, List.append_assoc]
  rw [hfmt]
  unfold parse_timestamp_to_ms
  rw [splitOnSep_two ',' _ _ ?hcA (comma_not_mem_padZeros 3 (ms % 1000))]
  case hcA =>
    intro h
    simp only [List.mem_append, List.mem_cons] at h
    rcases h with h | h | h | h | h
    · exact comma_not_mem_padZeros 2 _ h
    · exact absurd h (by decide)
    · exact comma_not_mem_padZeros 2 _ h
    · exact absurd h (by decide)
    · exact comma_not_mem_padZeros 2 _ h
  rw [parseCommaParts_pair]
  rw [splitOnSep_three ':' _ _ _ (colon_not_mem_padZeros 2 _) (colon_not_mem_padZeros 2 _)
    (colon_not_mem_padZeros 2 _)]
  have hcolon : parseColonParts (padZeros 3 (ms % 1000))
      [padZeros 2 (ms / 1000 / 60 / 60), padZeros 2 (ms / 1000 / 60 % 60),
        padZeros 2 (ms / 1000 % 60)] =
      ((ms / 1000 / 60 / 60 : Nat) : Int) * 3600 * 1000 +
        ((ms / 1000 / 60 % 60 : Nat) : Int) * 60 * 1000 +
        ((ms / 1000 % 60 : Nat) : Int) * 1000 + ((ms % 1000 : Nat) : Int) := by
    show (match pyIntOfStr (padZeros 2 (ms / 1000 / 60 / 60)),
        pyIntOfStr (padZeros 2 (ms / 1000 / 60 % 60)),
        pyIntOfStr (padZeros 2 (ms / 1000 % 60)),
        pyIntOfStr (padZeros 3 (ms % 1000)) with
      | some h, some m, some s, some msp =>
        (h * 3600 * 1000) + (m * 60 * 1000) + (s * 1000) + msp
      | _, _, _, _ => 0) = _
    rw [pyIntOfStr_padZeros, pyIntOfStr_padZeros, pyIntOfStr_padZeros, pyIntOfStr_padZeros]
  rw [hcolon]
  omega
